import Mathlib

/-
  Verification development for the npm package scanner
  (src/package_scanner.py, class PackageScanner).

  The scanner's data and operations are shallowly embedded:

  * JSON documents (`json.load` results) are `JVal`; a parsed document may
    be a non-object (string, number, null), since the Python code can meet
    those and its behaviour on them matters.
  * Files are `FileEntry` (name, readability, parse outcome); a directory
    tree is the mutual pair `DirTree`/`DirForest` so that the recursive
    walker is structurally recursive and computable by the kernel.
  * Python exceptions that escape a function are `Except Unit`; exceptions
    the source catches locally are handled at the same program point.
  * Python dicts are association lists with unique keys maintained by
    `dictSet` (replace-first-or-append, matching dict assignment) and read
    by `dictGet` (first occurrence); `dict.update` is `dictUpdate`
    (key-wise last-write-wins).
  * `os.walk` is modelled as the top-down depth-first traversal it
    performs: a directory whose contents cannot be listed (unreadable) is
    never yielded and never descended into; pruning via `dirs.clear()`
    becomes "do not recurse into the subforest".
  * Threads: the coordinator runs one worker per root; the shared visited
    set is threaded through the workers in completion order, and each
    worker's partial maps are merged with `dictUpdate`, exactly the
    source's sequence of shared-state operations for one completion order.
  * `ScanState.processed_log` is observation-only instrumentation: it is
    appended at exactly the program point where the source inserts a path
    into `self.scanned_dirs` (i.e. where a directory starts being
    processed); no other definition reads it.
-/

/-- A parsed JSON value: the result of a successful `json.load`. -/
inductive JVal where
  | jstr (s : String)
  | jnum (n : Int)
  | jnull
  | jobj (fields : List (String × JVal))

/-- Lookup of a key in the field list of a parsed JSON object
(parsed dicts have unique keys, so first match is the value). -/
def jlookup : List (String × JVal) → String → Option JVal
  | [], _ => none
  | (k, v) :: rest, key => if k = key then some v else jlookup rest key

/-- Python `value.get(key, dflt)`: succeeds on a dict, raises
`AttributeError` on any non-dict receiver. -/
def pyDictGet (v : JVal) (key : String) (dflt : JVal) : Except Unit JVal :=
  match v with
  | .jobj fields => .ok ((jlookup fields key).getD dflt)
  | _ => .error ()

/-- Python `s.startswith(p)` over the character sequence. -/
def pyStartsWith (s p : String) : Bool := p.data.isPrefixOf s.data

/-- Contiguous-substring test on character lists (Python `in` on str). -/
def charsInfix (needle : List Char) : List Char → Bool
  | [] => needle.isEmpty
  | c :: rest => needle.isPrefixOf (c :: rest) || charsInfix needle rest

/-- Python `key in value`: key test on a dict, substring test on a str,
`TypeError` on non-container values (int, None). -/
def pyContains (v : JVal) (key : String) : Except Unit Bool :=
  match v with
  | .jobj fields => .ok (jlookup fields key).isSome
  | .jstr s => .ok (charsInfix key.data s.data)
  | _ => .error ()

/-- Python `value[key].items()` as used on a manifest: returns the pairs
when `value` is a dict and `value[key]` is a dict, and raises otherwise
(`TypeError` indexing a non-dict by string, `AttributeError` calling
`.items()` on a non-dict, `KeyError` on a missing key). -/
def pyItems (v : JVal) (key : String) : Except Unit (List (String × JVal)) :=
  match v with
  | .jobj fields =>
    match jlookup fields key with
    | some (.jobj kvs) => .ok kvs
    | _ => .error ()
  | _ => .error ()

/-- Python `value.get(key, dflt)` at call sites that are only executed
when `value` is a dict (total helper). -/
def jGetD (v : JVal) (key : String) (dflt : JVal) : JVal :=
  match v with
  | .jobj fields => (jlookup fields key).getD dflt
  | _ => dflt

/-- A file: its name, whether the process may read it, and the outcome of
parsing it (`none` = `json.JSONDecodeError`, `some v` = parses to `v`). -/
structure FileEntry where
  name : String
  readable : Bool
  data : Option JVal

mutual
/-- A directory: name, read permission, plain files, subdirectories. -/
inductive DirTree where
  | mk (name : String) (readable : Bool) (files : List FileEntry) (subdirs : DirForest)
/-- A list of sibling directories (in `os.listdir` order). -/
inductive DirForest where
  | fnil
  | fcons (d : DirTree) (rest : DirForest)
end

def DirTree.name : DirTree → String
  | .mk n _ _ _ => n

def DirTree.readable : DirTree → Bool
  | .mk _ r _ _ => r

def DirTree.files : DirTree → List FileEntry
  | .mk _ _ f _ => f

def DirTree.subdirs : DirTree → DirForest
  | .mk _ _ _ s => s

/-- First file of a given name among a directory's plain files. -/
def findFile : List FileEntry → String → Option FileEntry
  | [], _ => none
  | f :: rest, n => if f.name = n then some f else findFile rest n

/-- First subdirectory of a given name in a forest. -/
def findSub : DirForest → String → Option DirTree
  | .fnil, _ => none
  | .fcons d rest, n => if d.name = n then some d else findSub rest n

/-- Follow a relative component list downwards from a directory. -/
def resolveRel : DirTree → List String → Option DirTree
  | d, [] => some d
  | d, n :: ns =>
    match findSub d.subdirs n with
    | some c => resolveRel c ns
    | none => none

/-- Resolve an absolute path (component list, head is the filesystem
root's own name, "/") against the global filesystem tree. -/
def resolve (fs : DirTree) (p : List String) : Option DirTree :=
  match p with
  | [] => none
  | r :: rest => if fs.name = r then resolveRel fs rest else none

/-- `str(Path)` for an absolute path given as its `parts` list: the parts
of `/a/b` are `["/", "a", "b"]` and it prints as `/a/b`. -/
def renderPath : List String → String
  | [] => ""
  | ["/"] => "/"
  | "/" :: rest => "/" ++ String.intercalate "/" rest
  | ps => String.intercalate "/" ps

/-- `Path.name` of the path with the given parts (`Path('/').name = ''`). -/
def pathName (p : List String) : String :=
  match p with
  | [] => ""
  | ["/"] => ""
  | ps => ps.getLastD ""

/-- The association-list reading of a Python dict: value at a key
(first occurrence; dicts built below keep keys unique). -/
def dictGet {α : Type} : List (String × α) → String → Option α
  | [], _ => none
  | (k0, v0) :: rest, k => if k0 = k then some v0 else dictGet rest k

/-- Python dict assignment `d[k] = v`: replace the value at an existing
key in place, append a new key at the end. -/
def dictSet {α : Type} : List (String × α) → String → α → List (String × α)
  | [], k, v => [(k, v)]
  | (k0, v0) :: rest, k, v =>
    if k0 = k then (k, v) :: rest else (k0, v0) :: dictSet rest k v

/-- Python `d1.update(d2)`: key-wise union, last write (from `d2`) wins. -/
def dictUpdate {α : Type} : List (String × α) → List (String × α) → List (String × α)
  | d1, [] => d1
  | d1, (k, v) :: rest => dictUpdate (dictSet d1 k v) rest

/-- Key list of a dict. -/
def dictKeys {α : Type} (d : List (String × α)) : List String := d.map Prod.fst

/-- The `skip_dirs` deny-list of `should_skip_directory`, verbatim. -/
def skip_dirs : List String :=
  [".git", ".svn", ".hg", "__pycache__",
   "venv", "env", ".env", "virtualenv",
   ".vscode", ".idea", "dist", "build",
   "target", "bin", "obj", ".cache",
   "Windows", "System32", "Program Files",
   "Applications"]

/-- `PackageScanner.should_skip_directory`: the argument is the directory
path; the predicate uses only its final name and `os.access(path, R_OK)`
(which returns a boolean and cannot raise, embedded as `readable`).
Python's `A and B or C or D` parses as `(A and B) or C or D`. -/
def should_skip_directory (name : String) (readable : Bool) : Bool :=
  (pyStartsWith name "." && !(decide (name ∈ [".npm", ".node_modules"]))) ||
    decide (name ∈ skip_dirs) ||
    !readable

/-- The record stored in `found_in_this_dir` / `installed_packages`.
`version` and `parent_project` are JSON values: the source stores
`package_data.get(...)` results unconverted. -/
structure InstalledPackageRecord where
  version : JVal
  path : String
  parent_project : JVal

/-- The record stored in `found_dependencies` / `dependency_references`. -/
structure DependencyReference where
  version : JVal
  dependency_type : String
  project : JVal
  path : String

/-- `PackageScanner.get_package_version`: read `package.json` inside the
package directory; absent file, unreadable file, unparsable file and a
parsed dict without a version all yield `"unknown"` (those raises are
caught); but `.get` on a parsed non-dict raises `AttributeError`, which
the `except` clause does not catch, hence `.error`. -/
def get_package_version (package_dir : DirTree) : Except Unit JVal :=
  match findFile package_dir.files "package.json" with
  | none => .ok (.jstr "unknown")
  | some f =>
    if f.readable then
      match f.data with
      | none => .ok (.jstr "unknown")
      | some v => pyDictGet v "version" (.jstr "unknown")
    else .ok (.jstr "unknown")

/-- `PackageScanner.find_parent_project`: look for `package.json` in the
parent directory of the store path; missing, unreadable or unparsable
manifests fall back to the parent directory's own name; `.get` on a
parsed non-dict raises `AttributeError` (uncaught, hence `.error`). -/
def find_parent_project (fs : DirTree) (node_modules_path : List String) : Except Unit JVal :=
  let parentPath := node_modules_path.dropLast
  let parentName := pathName parentPath
  match resolve fs parentPath with
  | none => .ok (.jstr parentName)
  | some parentDir =>
    match findFile parentDir.files "package.json" with
    | none => .ok (.jstr parentName)
    | some f =>
      if f.readable then
        match f.data with
        | none => .ok (.jstr parentName)
        | some v => pyDictGet v "name" (.jstr parentName)
      else .ok (.jstr parentName)

/-- The inner loop of `scan_node_modules` for one scoped (`@`-prefixed)
store entry: each child directory forms `f"{item.name}/{child.name}"`,
is tested against the target set, and on a match its version and the
parent project are resolved. An `AttributeError` escaping those lookups
is not caught by the surrounding `except (PermissionError, OSError)`. -/
def scanScopedChildren (tgt : List String) (fs : DirTree) (p : List String)
    (scopeName : String) :
    DirForest → List (String × InstalledPackageRecord) →
    Except Unit (List (String × InstalledPackageRecord))
  | .fnil, acc => .ok acc
  | .fcons c rest, acc =>
    let full := scopeName ++ "/" ++ c.name
    if full ∈ tgt then
      match get_package_version c with
      | .error e => .error e
      | .ok ver =>
        match find_parent_project fs p with
        | .error e => .error e
        | .ok proj =>
          scanScopedChildren tgt fs p scopeName rest
            (dictSet acc full ⟨ver, renderPath (p ++ [scopeName, c.name]), proj⟩)
    else scanScopedChildren tgt fs p scopeName rest acc

/-- The main loop of `scan_node_modules` over the store's child
directories (non-directories are skipped by `is_dir`). An unreadable
scoped entry raises `PermissionError` on `iterdir`, caught by
`continue`. A plain entry is matched by its own name. -/
def scanStoreItems (tgt : List String) (fs : DirTree) (p : List String) :
    DirForest → List (String × InstalledPackageRecord) →
    Except Unit (List (String × InstalledPackageRecord))
  | .fnil, acc => .ok acc
  | .fcons item rest, acc =>
    if pyStartsWith item.name "@" then
      if item.readable then
        match scanScopedChildren tgt fs p item.name item.subdirs acc with
        | .error e => .error e
        | .ok acc2 => scanStoreItems tgt fs p rest acc2
      else scanStoreItems tgt fs p rest acc
    else
      if item.name ∈ tgt then
        match get_package_version item with
        | .error e => .error e
        | .ok ver =>
          match find_parent_project fs p with
          | .error e => .error e
          | .ok proj =>
            scanStoreItems tgt fs p rest
              (dictSet acc item.name ⟨ver, renderPath (p ++ [item.name]), proj⟩)
      else scanStoreItems tgt fs p rest acc

/-- `PackageScanner.scan_node_modules` on the store directory at path `p`:
a non-existing path returns the empty dict (`exists()` check); an
unreadable store raises `PermissionError` on `iterdir`, caught by the
outer `except`, returning the empty partial dict. -/
def scan_node_modules (tgt : List String) (fs : DirTree) (p : List String) :
    Except Unit (List (String × InstalledPackageRecord)) :=
  match resolve fs p with
  | none => .ok []
  | some d => if d.readable then scanStoreItems tgt fs p d.subdirs [] else .ok []

/-- The four dependency classes, in the order the source iterates them. -/
def dep_sections : List String :=
  ["dependencies", "devDependencies", "peerDependencies", "optionalDependencies"]

/-- The inner loop of `scan_package_json` for the entries of one
dependency section: targets are written into the accumulated dict
(`found_dependencies[pkg_name] = record`, so a later write for the same
identifier overwrites an earlier one). -/
def addDepMatches (tgt : List String) (data : JVal) (pathStr sec : String) :
    List (String × JVal) → List (String × DependencyReference) →
    List (String × DependencyReference)
  | [], acc => acc
  | (pkg, ver) :: rest, acc =>
    if pkg ∈ tgt then
      addDepMatches tgt data pathStr sec rest
        (dictSet acc pkg ⟨ver, sec, jGetD data "name" (.jstr "unknown"), pathStr⟩)
    else addDepMatches tgt data pathStr sec rest acc

/-- The section loop of `scan_package_json`: `if section in data` then
iterate `data[section].items()`; a raise from either aborts the whole
call (losing the partial dict), since the `except` clause only catches
`JSONDecodeError`, `PermissionError` and `OSError`. -/
def scanDepSections (tgt : List String) (data : JVal) (pathStr : String) :
    List String → List (String × DependencyReference) →
    Except Unit (List (String × DependencyReference))
  | [], acc => .ok acc
  | sec :: rest, acc =>
    match pyContains data sec with
    | .error e => .error e
    | .ok false => scanDepSections tgt data pathStr rest acc
    | .ok true =>
      match pyItems data sec with
      | .error e => .error e
      | .ok kvs => scanDepSections tgt data pathStr rest (addDepMatches tgt data pathStr sec kvs acc)

/-- `PackageScanner.scan_package_json` on the manifest file at `pathStr`:
unreadable or unparsable manifests yield the empty dict (warning only). -/
def scan_package_json (tgt : List String) (f : FileEntry) (pathStr : String) :
    Except Unit (List (String × DependencyReference)) :=
  if f.readable then
    match f.data with
    | none => .ok []
    | some data => scanDepSections tgt data pathStr dep_sections []
  else .ok []

/-- The mutable state visible to one walker: the shared visited set
`self.scanned_dirs`, the worker-local partial result dicts, and the
abort flag (an uncaught exception ends the `os.walk` loop; the worker's
`except Exception` then returns the partials accumulated so far).
`processed_log` is observation-only instrumentation (see header). -/
structure ScanState where
  scanned_dirs : List String
  processed_log : List String
  installed_packages : List (String × InstalledPackageRecord)
  dependency_references : List (String × DependencyReference)
  aborted : Bool

mutual
/-- The tree walked by one worker, with every directory annotated by its
absolute path (`os.walk` yields path strings; the annotation is the pure
positional computation of those paths, done up front so the walker reads
each directory's path off the node). -/
inductive PTree where
  | mk (path : List String) (name : String) (readable : Bool)
       (files : List FileEntry) (subdirs : PForest)
/-- Sibling annotated directories, in `os.listdir` order. -/
inductive PForest where
  | fnil
  | fcons (d : PTree) (rest : PForest)
end

mutual
/-- Annotate each directory of a tree with its absolute path, given the
path of its parent. -/
def annotateT (p : List String) : DirTree → PTree
  | .mk n r f sub => .mk (p ++ [n]) n r f (annotateF (p ++ [n]) sub)
/-- Annotate a forest of sibling directories. -/
def annotateF (p : List String) : DirForest → PForest
  | .fnil => .fnil
  | .fcons d rest => .fcons (annotateT p d) (annotateF p rest)
end

mutual
/-- One `os.walk` visit in `scan_directory_worker`, at the annotated
directory `d`: skip-classified directories are pruned unprocessed; an
already-visited path is skipped (`continue`) but — `dirs` not being
cleared — its subdirectories are still walked; otherwise the path is
recorded as visited and processed: a `node_modules` directory is
store-scanned and pruned, any other directory has a present
`package.json` scanned for dependencies and is pruned exactly when its
absolute path has more than 10 components
(`len(current_path.parts) > 10`). A directory that cannot be listed is
never yielded by `os.walk` (scandir fails, error ignored). -/
def walkTree (tgt : List String) (fs : DirTree) (d : PTree) (st : ScanState) : ScanState :=
  match d with
  | .mk p dname dreadable dfiles dsubs =>
    match st with
    | .mk sdirs plog inst deps ab =>
      if ab then .mk sdirs plog inst deps ab
      else if !dreadable then .mk sdirs plog inst deps ab
      else if should_skip_directory dname dreadable then .mk sdirs plog inst deps ab
      else if renderPath p ∈ sdirs then
        walkForest tgt fs dsubs (.mk sdirs plog inst deps ab)
      else if dname = "node_modules" then
        match scan_node_modules tgt fs p with
        | .ok found =>
          .mk (renderPath p :: sdirs) (plog ++ [renderPath p]) (dictUpdate inst found) deps ab
        | .error _ =>
          .mk (renderPath p :: sdirs) (plog ++ [renderPath p]) inst deps true
      else
        match (match findFile dfiles "package.json" with
               | some f => scan_package_json tgt f (renderPath (p ++ ["package.json"]))
               | none => Except.ok []) with
        | .error _ =>
          .mk (renderPath p :: sdirs) (plog ++ [renderPath p]) inst deps true
        | .ok found =>
          if 10 < p.length then
            .mk (renderPath p :: sdirs) (plog ++ [renderPath p]) inst (dictUpdate deps found) ab
          else
            walkForest tgt fs dsubs
              (.mk (renderPath p :: sdirs) (plog ++ [renderPath p]) inst (dictUpdate deps found) ab)
/-- Depth-first left-to-right traversal of sibling subdirectories. -/
def walkForest (tgt : List String) (fs : DirTree) : PForest → ScanState → ScanState
  | .fnil, st => st
  | .fcons c rest, st => walkForest tgt fs rest (walkTree tgt fs c st)
end

/-- `PackageScanner.scan_directory_worker` for one root path: walk the
root if it exists (annotated with its absolute paths), with fresh local
result dicts and the shared visited set (and log) passed in. -/
def scan_directory_worker (tgt : List String) (fs : DirTree) (root : List String)
    (visited : List String) (plog : List String) : ScanState :=
  match resolve fs root with
  | none => ⟨visited, plog, [], [], false⟩
  | some d => walkTree tgt fs (annotateT root.dropLast d) ⟨visited, plog, [], [], false⟩

/-- The aggregate result built by `scan_computer`: the two merged result
maps, plus the shared visited set and the instrumentation log. -/
structure ScanResults where
  installed_packages : List (String × InstalledPackageRecord)
  dependency_references : List (String × DependencyReference)
  visited : List String
  processed_log : List String

/-- The coordinator loop of `scan_computer`: workers complete in list
order; each completed worker's partial dicts are merged into the shared
results with `dict.update` (last write wins). -/
def scan_computer_go (tgt : List String) (fs : DirTree) :
    List (List String) → ScanResults → ScanResults
  | [], acc => acc
  | root :: rest, acc =>
    match acc with
    | .mk accInst accDeps accVisited accPlog =>
      match scan_directory_worker tgt fs root accVisited accPlog with
      | .mk sdirs plog inst deps _ =>
        scan_computer_go tgt fs rest
          ⟨dictUpdate accInst inst, dictUpdate accDeps deps, sdirs, plog⟩

/-- `PackageScanner.scan_computer` over the given root paths. The final
summary block of the source only computes lengths of the two result
maps and is derived data, not modelled. -/
def scan_computer (tgt : List String) (fs : DirTree) (roots : List (List String)) : ScanResults :=
  scan_computer_go tgt fs roots ⟨[], [], [], []⟩

mutual
/-- The walker exactly as claim C9 describes it: identical to `walkTree`
except that a directory whose path is already in the visited set
terminates its whole branch immediately (no descent into children).
This is a claim-side definition, used only to compare against the
source's behaviour. -/
def walkTreeClaimed (tgt : List String) (fs : DirTree) (d : PTree) (st : ScanState) : ScanState :=
  match d with
  | .mk p dname dreadable dfiles dsubs =>
    match st with
    | .mk sdirs plog inst deps ab =>
      if ab then .mk sdirs plog inst deps ab
      else if !dreadable then .mk sdirs plog inst deps ab
      else if should_skip_directory dname dreadable then .mk sdirs plog inst deps ab
      else if renderPath p ∈ sdirs then .mk sdirs plog inst deps ab
      else if dname = "node_modules" then
        match scan_node_modules tgt fs p with
        | .ok found =>
          .mk (renderPath p :: sdirs) (plog ++ [renderPath p]) (dictUpdate inst found) deps ab
        | .error _ =>
          .mk (renderPath p :: sdirs) (plog ++ [renderPath p]) inst deps true
      else
        match (match findFile dfiles "package.json" with
               | some f => scan_package_json tgt f (renderPath (p ++ ["package.json"]))
               | none => Except.ok []) with
        | .error _ =>
          .mk (renderPath p :: sdirs) (plog ++ [renderPath p]) inst deps true
        | .ok found =>
          if 10 < p.length then
            .mk (renderPath p :: sdirs) (plog ++ [renderPath p]) inst (dictUpdate deps found) ab
          else
            walkForestClaimed tgt fs dsubs
              (.mk (renderPath p :: sdirs) (plog ++ [renderPath p]) inst (dictUpdate deps found) ab)
/-- Sibling traversal of the claim-described walker. -/
def walkForestClaimed (tgt : List String) (fs : DirTree) : PForest → ScanState → ScanState
  | .fnil, st => st
  | .fcons c rest, st => walkForestClaimed tgt fs rest (walkTreeClaimed tgt fs c st)
end

/-- Worker running the claim-described walker. -/
def scan_directory_worker_claimed (tgt : List String) (fs : DirTree) (root : List String)
    (visited : List String) (plog : List String) : ScanState :=
  match resolve fs root with
  | none => ⟨visited, plog, [], [], false⟩
  | some d => walkTreeClaimed tgt fs (annotateT root.dropLast d) ⟨visited, plog, [], [], false⟩

/-- Coordinator loop over the claim-described walker. -/
def scan_computer_go_claimed (tgt : List String) (fs : DirTree) :
    List (List String) → ScanResults → ScanResults
  | [], acc => acc
  | root :: rest, acc =>
    match acc with
    | .mk accInst accDeps accVisited accPlog =>
      match scan_directory_worker_claimed tgt fs root accVisited accPlog with
      | .mk sdirs plog inst deps _ =>
        scan_computer_go_claimed tgt fs rest
          ⟨dictUpdate accInst inst, dictUpdate accDeps deps, sdirs, plog⟩

/-- Whole-computer scan with the claim-described walker. -/
def scan_computer_claimed (tgt : List String) (fs : DirTree) (roots : List (List String)) : ScanResults :=
  scan_computer_go_claimed tgt fs roots ⟨[], [], [], []⟩

/-- The skip condition exactly as the specification words it (claim C6):
the name starts with a dot and is not in the dotted allow-list, or the
name is in the fixed deny-list, or the process lacks read permission. -/
def SkipSpecified (name : String) (readable : Bool) : Prop :=
  (pyStartsWith name "." = true ∧ name ∉ [".npm", ".node_modules"]) ∨
    name ∈ skip_dirs ∨ readable = false

/-- The entries of one dependency section of a parsed manifest, when the
manifest is an object and that section is present with an object value
(`none` otherwise). -/
def sectionItems (data : JVal) (sec : String) : Option (List (String × JVal)) :=
  match data with
  | .jobj fields =>
    match jlookup fields sec with
    | some (.jobj kvs) => some kvs
    | _ => none
  | _ => none

/-- The `DependencyReference` that section `sec` of a manifest declares
for identifier `k`, if any: the section must be present with an object
value, `k` must be a target, and `k` must appear in the section. -/
def secRef (tgt : List String) (data : JVal) (pathStr sec k : String) :
    Option DependencyReference :=
  match sectionItems data sec with
  | none => none
  | some kvs =>
    if k ∈ tgt then
      (jlookup kvs k).map
        (fun v => ⟨v, sec, jGetD data "name" (.jstr "unknown"), pathStr⟩)
    else none

/-- The reference for `k` from the LAST section in `secs` that declares
it (later sections override earlier ones, mirroring dict overwrite). -/
def lastRefIn (tgt : List String) (data : JVal) (pathStr : String) :
    List String → String → Option DependencyReference
  | [], _ => none
  | sec :: rest, k =>
    match lastRefIn tgt data pathStr rest k with
    | some r => some r
    | none => secRef tgt data pathStr sec k

/-- Well-formedness of a parsed manifest for dependency scanning: every
present dependency section is an object with pairwise-distinct keys
(`json.load` of an on-disk manifest always yields this, since parsed
dicts have unique keys). -/
def manifestWF (data : JVal) : Bool :=
  dep_sections.all (fun sec =>
    match sectionItems data sec with
    | some kvs => decide ((kvs.map Prod.fst).Nodup)
    | none => true)

/-- Example target set. -/
def tgtEx : List String := ["left-pad"]

/-- Example installed left-pad metadata: a manifest with a name, a
version and a dependencies section that also lists left-pad. -/
def lpManifest : JVal :=
  .jobj [("name", .jstr "left-pad"), ("version", .jstr "1.3.0"),
         ("dependencies", .jobj [("left-pad", .jstr "^1.0.0")])]

/-- The metadata file holding `lpManifest`. -/
def lpMetaFile : FileEntry := ⟨"package.json", true, some lpManifest⟩

/-- An installed left-pad package directory. -/
def lpDir : DirTree := .mk "left-pad" true [lpMetaFile] .fnil

/-- A package store holding the left-pad package. -/
def nmDir : DirTree := .mk "node_modules" true [] (.fcons lpDir .fnil)

/-- A chain of `n` nested plain directories above `d`. -/
def nestDirs : Nat → DirTree → DirTree
  | 0, d => d
  | n+1, d => .mk "lvl" true [] (.fcons (nestDirs n d) .fnil)

/-- Filesystem with the store at depth 10 below the root `/`
(absolute component count 11). -/
def fsDepth10 : DirTree := .mk "/" true [] (.fcons (nestDirs 9 nmDir) .fnil)

/-- Filesystem with the store at depth 11 below the root `/`
(absolute component count 12). -/
def fsDepth11 : DirTree := .mk "/" true [] (.fcons (nestDirs 10 nmDir) .fnil)

/-- Filesystem where, below the directory `/a/b`, the store sits at
relative depth 9 (absolute component count 12). -/
def fsDeepRoot : DirTree :=
  .mk "/" true [] (.fcons (.mk "a" true []
    (.fcons (.mk "b" true [] (.fcons (nestDirs 8 nmDir) .fnil)) .fnil)) .fnil)

/-- Filesystem `/a/b/node_modules/left-pad` for the overlapping-roots
scenario. -/
def fsOverlap : DirTree :=
  .mk "/" true []
    (.fcons (.mk "a" true []
      (.fcons (.mk "b" true [] (.fcons nmDir .fnil)) .fnil)) .fnil)

/-- A manifest declaring the target in all four dependency classes. -/
def fourClassManifest : JVal :=
  .jobj [("name", .jstr "proj"),
         ("dependencies", .jobj [("left-pad", .jstr "^1")]),
         ("devDependencies", .jobj [("left-pad", .jstr "^2")]),
         ("peerDependencies", .jobj [("left-pad", .jstr "^3")]),
         ("optionalDependencies", .jobj [("left-pad", .jstr "^4")])]

/-- The manifest file holding `fourClassManifest`. -/
def fourClassFile : FileEntry := ⟨"package.json", true, some fourClassManifest⟩

/-- A package directory whose metadata file parses to the JSON document
`null` (valid JSON, not an object). -/
def nullMetaDir : DirTree :=
  .mk "left-pad" true [⟨"package.json", true, some .jnull⟩] .fnil

/-- A filesystem for the target-in-deny-list scenario: the target's
store lies inside a `dist` directory. -/
def fsDenied : DirTree :=
  .mk "/" true []
    (.fcons (.mk "dist" true [] (.fcons nmDir .fnil)) .fnil)

/-- A filesystem whose store holds one scoped entry `@scope/pkg`. -/
def fsScoped : DirTree :=
  .mk "/" true []
    (.fcons (.mk "node_modules" true []
      (.fcons (.mk "@scope" true []
        (.fcons (.mk "pkg" true [] .fnil) .fnil)) .fnil)) .fnil)

theorem dictKeys_nil {α : Type} : dictKeys ([] : List (String × α)) = [] := rfl

theorem dictKeys_cons {α : Type} (k0 : String) (v0 : α) (t : List (String × α)) :
    dictKeys ((k0, v0) :: t) = k0 :: dictKeys t := rfl

theorem dictGet_cons {α : Type} (k0 : String) (v0 : α) (t : List (String × α)) (k : String) :
    dictGet ((k0, v0) :: t) k = if k0 = k then some v0 else dictGet t k := rfl

theorem dictSet_cons {α : Type} (k0 : String) (v0 : α) (t : List (String × α))
    (k : String) (v : α) :
    dictSet ((k0, v0) :: t) k v =
      if k0 = k then (k, v) :: t else (k0, v0) :: dictSet t k v := rfl

theorem dictUpdate_cons {α : Type} (d1 : List (String × α)) (k0 : String) (v0 : α)
    (t : List (String × α)) :
    dictUpdate d1 ((k0, v0) :: t) = dictUpdate (dictSet d1 k0 v0) t := rfl

theorem dictGet_dictSet_self {α : Type} (d : List (String × α)) (k : String) (v : α) :
    dictGet (dictSet d k v) k = some v := by
  induction d with
  | nil => simp [dictSet, dictGet]
  | cons hd t ih =>
    obtain ⟨k0, v0⟩ := hd
    by_cases hk : k0 = k
    · simp [dictSet_cons, dictGet_cons, hk]
    · simp [dictSet_cons, dictGet_cons, hk, ih]

theorem dictGet_dictSet_ne {α : Type} (d : List (String × α)) (k k' : String) (v : α)
    (h : k' ≠ k) : dictGet (dictSet d k v) k' = dictGet d k' := by
  induction d with
  | nil =>
    simp [dictSet, dictGet]
    exact fun hh => absurd hh.symm h
  | cons hd t ih =>
    obtain ⟨k0, v0⟩ := hd
    by_cases hk : k0 = k
    · subst hk
      simp [dictSet_cons, dictGet_cons, Ne.symm h]
    · simp [dictSet_cons, dictGet_cons, hk, ih]

theorem dictGet_eq_none_of_not_mem {α : Type} (d : List (String × α)) (k : String)
    (h : k ∉ dictKeys d) : dictGet d k = none := by
  induction d with
  | nil => simp [dictGet]
  | cons hd t ih =>
    obtain ⟨k0, v0⟩ := hd
    rw [dictKeys_cons] at h
    simp at h
    simp [dictGet_cons, Ne.symm h.1, ih h.2]

theorem mem_dictKeys_of_dictGet_some {α : Type} (d : List (String × α)) (k : String)
    (v : α) (h : dictGet d k = some v) : k ∈ dictKeys d := by
  induction d with
  | nil => simp [dictGet] at h
  | cons hd t ih =>
    obtain ⟨k0, v0⟩ := hd
    rw [dictKeys_cons]
    rw [dictGet_cons] at h
    by_cases hk : k0 = k
    · simp [hk]
    · simp [hk] at h
      simp [ih h]

theorem mem_dictKeys_dictSet {α : Type} (d : List (String × α)) (k k' : String) (v : α)
    (h : k' ∈ dictKeys (dictSet d k v)) : k' ∈ dictKeys d ∨ k' = k := by
  induction d with
  | nil =>
    simp [dictSet, dictKeys] at h
    exact Or.inr h
  | cons hd t ih =>
    obtain ⟨k0, v0⟩ := hd
    by_cases hk : k0 = k
    · rw [dictSet_cons, if_pos hk] at h
      rw [dictKeys_cons] at h
      rw [dictKeys_cons]
      simp at h
      rcases h with h | h
      · exact Or.inr h
      · exact Or.inl (by simp [h])
    · rw [dictSet_cons, if_neg hk] at h
      rw [dictKeys_cons] at h
      rw [dictKeys_cons]
      simp at h
      rcases h with h | h
      · exact Or.inl (by simp [h])
      · rcases ih h with h' | h'
        · exact Or.inl (by simp [h'])
        · exact Or.inr h'

theorem nodup_dictKeys_dictSet {α : Type} (d : List (String × α)) (k : String) (v : α)
    (h : (dictKeys d).Nodup) : (dictKeys (dictSet d k v)).Nodup := by
  induction d with
  | nil => simp [dictSet, dictKeys]
  | cons hd t ih =>
    obtain ⟨k0, v0⟩ := hd
    rw [dictKeys_cons] at h
    simp at h
    by_cases hk : k0 = k
    · rw [dictSet_cons, if_pos hk, dictKeys_cons]
      subst hk
      simp [h.1, h.2]
    · rw [dictSet_cons, if_neg hk, dictKeys_cons]
      simp
      constructor
      · intro hmem
        rcases mem_dictKeys_dictSet t k k0 v hmem with h' | h'
        · exact h.1 h'
        · exact hk h'
      · exact ih h.2

theorem dictGet_dictUpdate {α : Type} (d1 d2 : List (String × α))
    (h2 : (dictKeys d2).Nodup) (k : String) :
    dictGet (dictUpdate d1 d2) k =
      if k ∈ dictKeys d2 then dictGet d2 k else dictGet d1 k := by
  induction d2 generalizing d1 with
  | nil => simp [dictUpdate, dictKeys]
  | cons hd t ih =>
    obtain ⟨k0, v0⟩ := hd
    rw [dictKeys_cons] at h2
    simp at h2
    rw [dictUpdate_cons, ih (dictSet d1 k0 v0) h2.2]
    by_cases hk : k = k0
    · subst hk
      have hnt : k ∉ dictKeys t := h2.1
      simp [hnt, dictKeys_cons, dictGet_cons, dictGet_dictSet_self]
    · by_cases hmem : k ∈ dictKeys t
      · simp [hmem, dictKeys_cons, hk, dictGet_cons, Ne.symm hk]
      · simp [hmem, dictKeys_cons, hk, dictGet_cons, Ne.symm hk,
          dictGet_dictSet_ne d1 k0 k v0 hk]

theorem nodup_dictKeys_dictUpdate {α : Type} (d1 d2 : List (String × α))
    (h1 : (dictKeys d1).Nodup) : (dictKeys (dictUpdate d1 d2)).Nodup := by
  induction d2 generalizing d1 with
  | nil => simpa [dictUpdate]
  | cons hd t ih =>
    obtain ⟨k0, v0⟩ := hd
    rw [dictUpdate_cons]
    exact ih (dictSet d1 k0 v0) (nodup_dictKeys_dictSet d1 k0 v0 h1)

theorem mem_dictKeys_dictUpdate {α : Type} (d1 d2 : List (String × α)) (k : String)
    (h : k ∈ dictKeys (dictUpdate d1 d2)) :
    k ∈ dictKeys d1 ∨ k ∈ dictKeys d2 := by
  induction d2 generalizing d1 with
  | nil => exact Or.inl (by simpa [dictUpdate] using h)
  | cons hd t ih =>
    obtain ⟨k0, v0⟩ := hd
    rw [dictUpdate_cons] at h
    rcases ih (dictSet d1 k0 v0) h with h' | h'
    · rcases mem_dictKeys_dictSet d1 k0 k v0 h' with h'' | h''
      · exact Or.inl h''
      · exact Or.inr (by simp [dictKeys_cons, h''])
    · exact Or.inr (by rw [dictKeys_cons]; exact List.mem_cons_of_mem k0 h')

/-- Claim C8: merging partial result dicts with `dict.update` is
commutative for disjoint key sets (the merged maps agree at every key);
when both dicts carry a record for a key, the merged map holds exactly
the second (later-written) dict's record for that key — one of the two
records, never both (the merged key list stays duplicate-free, third
conjunct) and never a combination (the value is exactly `dictGet d2 k`,
second conjunct). -/
theorem merge_update_lastwrite {α : Type} (d1 d2 : List (String × α))
    (h1 : (dictKeys d1).Nodup) (h2 : (dictKeys d2).Nodup) :
    ((∀ k ∈ dictKeys d1, k ∉ dictKeys d2) →
      ∀ k, dictGet (dictUpdate d1 d2) k = dictGet (dictUpdate d2 d1) k) ∧
    (∀ k, k ∈ dictKeys d1 → k ∈ dictKeys d2 →
      dictGet (dictUpdate d1 d2) k = dictGet d2 k) ∧
    (dictKeys (dictUpdate d1 d2)).Nodup := by
  refine ⟨?_, ?_, nodup_dictKeys_dictUpdate d1 d2 h1⟩
  · intro hdisj k
    rw [dictGet_dictUpdate d1 d2 h2 k, dictGet_dictUpdate d2 d1 h1 k]
    by_cases hm2 : k ∈ dictKeys d2
    · have hm1 : k ∉ dictKeys d1 := fun hm1 => hdisj k hm1 hm2
      simp [hm2, hm1]
    · by_cases hm1 : k ∈ dictKeys d1
      · simp [hm2, hm1]
      · simp [hm2, hm1, dictGet_eq_none_of_not_mem d1 k hm1,
          dictGet_eq_none_of_not_mem d2 k hm2]
  · intro k _ hm2
    rw [dictGet_dictUpdate d1 d2 h2 k]
    simp [hm2]

/-- Witness for claim C8 at concrete dicts: `[a ↦ 1]` merged with
`[b ↦ 2]` in either order agrees at `a`; `[a ↦ 1]` merged with
`[a ↦ 2]` holds the second record for `a`. -/
theorem merge_update_lastwrite_witness :
    (dictGet (dictUpdate [("a", (1 : Nat))] [("b", 2)]) "a" =
      dictGet (dictUpdate [("b", (2 : Nat))] [("a", 1)]) "a") ∧
    dictGet (dictUpdate [("a", (1 : Nat))] [("a", 2)]) "a" = dictGet [("a", (2 : Nat))] "a" :=
  ⟨(merge_update_lastwrite [("a", 1)] [("b", 2)] (by decide) (by decide)).1 (by decide) "a",
   (merge_update_lastwrite [("a", 1)] [("a", 2)] (by decide) (by decide)).2.1 "a"
     (by decide) (by decide)⟩

/-- Claim C6: the directory classifier decides skip exactly when the
name begins with a dot and is not allow-listed, or the name is in the
fixed deny-list, or the directory is not readable (the `os.access`
check returns a boolean and cannot raise); there is no other filtering:
the equivalence is exact, in both directions, for every name and
readability. -/
theorem should_skip_directory_iff (name : String) (readable : Bool) :
    should_skip_directory name readable = true ↔ SkipSpecified name readable := by
  simp [should_skip_directory, SkipSpecified, Bool.or_eq_true, Bool.and_eq_true,
    decide_eq_true_iff, Bool.not_eq_true']
  tauto

/-- Claim C7: a directory whose name is in the deny-list is never
descended into — the walker returns its state unchanged on such a
directory, so nothing anywhere inside it can contribute an installed
record or a dependency reference, whatever the filesystem, path, state
and target set. -/
theorem denylist_never_descended (tgt : List String) (fs : DirTree) (p : List String)
    (dname : String) (dreadable : Bool) (dfiles : List FileEntry) (dsubs : PForest)
    (st : ScanState) (h : dname ∈ skip_dirs) :
    walkTree tgt fs (.mk p dname dreadable dfiles dsubs) st = st := by
  have hskip : should_skip_directory dname dreadable = true := by
    simp [should_skip_directory, h]
  cases st with
  | mk sdirs plog inst deps ab =>
    simp [walkTree, hskip]

/-- Witness for claim C7: walking a `dist` directory leaves the scan
state untouched. -/
theorem denylist_never_descended_witness :
    walkTree tgtEx fsDenied (.mk ["/", "dist"] "dist" true [] .fnil)
      ⟨[], [], [], [], false⟩ = ⟨[], [], [], [], false⟩ :=
  denylist_never_descended tgtEx fsDenied ["/", "dist"] "dist" true [] .fnil
    ⟨[], [], [], [], false⟩ (by decide)

/-- Claim C5 (code-bug evaluation): on a package directory whose
`package.json` contains the valid JSON document `null`, the version
lookup raises (`json.load` succeeds with `None`, and `None.get` raises
`AttributeError`, which the `except` clause — catching only
`JSONDecodeError`, `PermissionError`, `OSError` — does not stop), so it
neither returns a string nor the `"unknown"` sentinel. -/
theorem get_package_version_nonobject_raises :
    get_package_version nullMetaDir = .error () := rfl

/-- Claim C1 (counterexample): with scan root `/a/b` (3 absolute
components) and a target package whose store sits 9 levels below the
root — one level shallower than the claimed bound of 10 — the package
is NOT found: the prune tests `len(current_path.parts) > 10` against
the absolute component count (the store's parent has 11 components
here), not against the depth from the scan root. -/
theorem depth_prune_counterexample :
    dictGet (scan_computer tgtEx fsDeepRoot [["/", "a", "b"]]).installed_packages
      "left-pad" = none := rfl

/-- Claim C9 (counterexample): over the overlapping roots `/a/b` then
`/a`, the source walker records a dependency reference for the target
found at `/a/b/node_modules/left-pad` during the second walk — it
reaches that directory through the already-visited `/a/b` and
`/a/b/node_modules`, because `continue` on a visited path does not
clear `dirs` — whereas the walker the claim describes (terminate the
branch at a visited directory) records none. -/
theorem visited_branch_counterexample :
    (dictGet (scan_computer tgtEx fsOverlap [["/", "a", "b"], ["/", "a"]]).dependency_references
      "left-pad").isSome = true ∧
    (dictGet (scan_computer_claimed tgtEx fsOverlap
      [["/", "a", "b"], ["/", "a"]]).dependency_references "left-pad").isSome = false :=
  ⟨rfl, rfl⟩

/-- Claim C1 (amended): the walker's depth prune is governed by the
ABSOLUTE path component count, not the depth from the scan root: a
not-yet-visited directory whose absolute path has more than 10
components is processed at most by itself (its log gains at most its
own path — no descendant is ever processed, whatever its
classification); with scan root `/` this makes a target store at depth
10 found and one at depth 11 not found. -/
theorem depth_prune_amended :
    (∀ (tgt : List String) (fs : DirTree) (p : List String) (dname : String)
       (dreadable : Bool) (dfiles : List FileEntry) (dsubs : PForest) (st : ScanState),
      renderPath p ∉ st.scanned_dirs → 10 < p.length →
      (walkTree tgt fs (.mk p dname dreadable dfiles dsubs) st).processed_log
          = st.processed_log ∨
        (walkTree tgt fs (.mk p dname dreadable dfiles dsubs) st).processed_log
          = st.processed_log ++ [renderPath p]) ∧
    (dictGet (scan_computer tgtEx fsDepth10 [["/"]]).installed_packages "left-pad").isSome
        = true ∧
    dictGet (scan_computer tgtEx fsDepth11 [["/"]]).installed_packages "left-pad" = none := by
  refine ⟨?_, rfl, rfl⟩
  intro tgt fs p dname dreadable dfiles dsubs st hnv hlen
  cases st with
  | mk sdirs plog inst deps ab =>
    simp only [walkTree]
    split
    · exact Or.inl rfl
    split
    · exact Or.inl rfl
    split
    · exact Or.inl rfl
    split
    · split
      · exact Or.inr rfl
      · exact Or.inr rfl
    · split
      · exact Or.inr rfl
      · exact Or.inr rfl

/-- Witness for claim C1 (amended), first conjunct: at the unvisited
11-component path `/a/b/c/d/e/f/g/h/i/j`, the walker's log grows by at
most that one path. -/
theorem depth_prune_amended_witness :
    (walkTree tgtEx fsDepth10
        (.mk ["/", "a", "b", "c", "d", "e", "f", "g", "h", "i", "j"] "j" true [] .fnil)
        ⟨[], [], [], [], false⟩).processed_log = ([] : List String) ∨
      (walkTree tgtEx fsDepth10
        (.mk ["/", "a", "b", "c", "d", "e", "f", "g", "h", "i", "j"] "j" true [] .fnil)
        ⟨[], [], [], [], false⟩).processed_log
        = [] ++ [renderPath ["/", "a", "b", "c", "d", "e", "f", "g", "h", "i", "j"]] :=
  depth_prune_amended.1 tgtEx fsDepth10
    ["/", "a", "b", "c", "d", "e", "f", "g", "h", "i", "j"] "j" true [] .fnil
    ⟨[], [], [], [], false⟩ (by decide) (by decide)

theorem log_grow_inv (sdirs plog : List String) (rp : String)
    (h1 : plog.Nodup) (h2 : ∀ x ∈ plog, x ∈ sdirs) (hrp : rp ∉ sdirs) :
    (plog ++ [rp]).Nodup ∧ ∀ x ∈ plog ++ [rp], x ∈ rp :: sdirs := by
  constructor
  · rw [List.nodup_append]
    refine ⟨h1, List.nodup_singleton rp, ?_⟩
    intro a ha hb
    simp at hb
    subst hb
    exact hrp (h2 a ha)
  · intro x hx
    rcases List.mem_append.mp hx with hx | hx
    · exact List.mem_cons_of_mem rp (h2 x hx)
    · simp at hx
      subst hx
      exact List.mem_cons_self _ _

mutual
theorem walkTree_log_nodup (tgt : List String) (fs : DirTree) (d : PTree) (st : ScanState)
    (h1 : st.processed_log.Nodup) (h2 : ∀ x ∈ st.processed_log, x ∈ st.scanned_dirs) :
    (walkTree tgt fs d st).processed_log.Nodup ∧
      ∀ x ∈ (walkTree tgt fs d st).processed_log, x ∈ (walkTree tgt fs d st).scanned_dirs := by
  cases d with
  | mk p dname dreadable dfiles dsubs =>
    cases st with
    | mk sdirs plog inst deps ab =>
      simp only [walkTree]
      split
      · exact ⟨h1, h2⟩
      split
      · exact ⟨h1, h2⟩
      split
      · exact ⟨h1, h2⟩
      split
      · exact walkForest_log_nodup tgt fs dsubs (.mk sdirs plog inst deps ab) h1 h2
      next hvis =>
        split
        · split
          · exact log_grow_inv sdirs plog (renderPath p) h1 h2 hvis
          · exact log_grow_inv sdirs plog (renderPath p) h1 h2 hvis
        · split
          · exact log_grow_inv sdirs plog (renderPath p) h1 h2 hvis
          · split
            · exact log_grow_inv sdirs plog (renderPath p) h1 h2 hvis
            · have hg := log_grow_inv sdirs plog (renderPath p) h1 h2 hvis
              exact walkForest_log_nodup tgt fs dsubs _ hg.1 hg.2
theorem walkForest_log_nodup (tgt : List String) (fs : DirTree) (f : PForest) (st : ScanState)
    (h1 : st.processed_log.Nodup) (h2 : ∀ x ∈ st.processed_log, x ∈ st.scanned_dirs) :
    (walkForest tgt fs f st).processed_log.Nodup ∧
      ∀ x ∈ (walkForest tgt fs f st).processed_log, x ∈ (walkForest tgt fs f st).scanned_dirs := by
  cases f with
  | fnil => exact ⟨h1, h2⟩
  | fcons c rest =>
    have hc := walkTree_log_nodup tgt fs c st h1 h2
    exact walkForest_log_nodup tgt fs rest (walkTree tgt fs c st) hc.1 hc.2
end

theorem worker_log_nodup (tgt : List String) (fs : DirTree) (root : List String)
    (visited plog : List String)
    (h1 : plog.Nodup) (h2 : ∀ x ∈ plog, x ∈ visited) :
    (scan_directory_worker tgt fs root visited plog).processed_log.Nodup ∧
      ∀ x ∈ (scan_directory_worker tgt fs root visited plog).processed_log,
        x ∈ (scan_directory_worker tgt fs root visited plog).scanned_dirs := by
  unfold scan_directory_worker
  cases resolve fs root with
  | none => exact ⟨h1, h2⟩
  | some d =>
    exact walkTree_log_nodup tgt fs (annotateT root.dropLast d) ⟨visited, plog, [], [], false⟩ h1 h2

theorem go_log_nodup (tgt : List String) (fs : DirTree) (roots : List (List String)) :
    ∀ acc : ScanResults, acc.processed_log.Nodup →
      (∀ x ∈ acc.processed_log, x ∈ acc.visited) →
      (scan_computer_go tgt fs roots acc).processed_log.Nodup ∧
        ∀ x ∈ (scan_computer_go tgt fs roots acc).processed_log,
          x ∈ (scan_computer_go tgt fs roots acc).visited := by
  induction roots with
  | nil => exact fun acc ha1 ha2 => ⟨ha1, ha2⟩
  | cons root rest ih =>
    intro acc ha1 ha2
    cases acc with
    | mk ai ad av ap =>
      have hw := worker_log_nodup tgt fs root av ap ha1 ha2
      simp only [scan_computer_go]
      cases hwe : scan_directory_worker tgt fs root av ap with
      | mk sd pl ip dr ab =>
        rw [hwe] at hw
        exact ih ⟨dictUpdate ai ip, dictUpdate ad dr, sd, pl⟩ hw.1 hw.2

/-- Claim C9 (amended): each physical directory is processed at most
once across any multi-root scan — the walker check-and-inserts the path
into the shared visited set right before processing and skips an
already-present directory's own processing (while still traversing its
children, each itself checked), so the log of processed directories
never repeats a path. -/
theorem scan_processes_each_directory_once (tgt : List String) (fs : DirTree)
    (roots : List (List String)) :
    (scan_computer tgt fs roots).processed_log.Nodup :=
  (go_log_nodup tgt fs roots ⟨[], [], [], []⟩ (by simp) (by simp)).1

theorem scanScopedChildren_keys (tgt : List String) (fs : DirTree) (p : List String)
    (sname : String) (f : DirForest) :
    ∀ (acc r : List (String × InstalledPackageRecord)),
      scanScopedChildren tgt fs p sname f acc = .ok r →
      (∀ k ∈ dictKeys acc, k ∈ tgt) → ∀ k ∈ dictKeys r, k ∈ tgt := by
  cases f with
  | fnil =>
    intro acc r h hacc
    simp only [scanScopedChildren] at h
    cases h
    exact hacc
  | fcons c rest =>
    intro acc r h hacc
    simp only [scanScopedChildren] at h
    split at h
    · next hfull =>
      split at h
      · simp at h
      · split at h
        · simp at h
        · refine scanScopedChildren_keys tgt fs p sname rest _ _ h ?_
          intro k hk
          rcases mem_dictKeys_dictSet acc _ k _ hk with hk' | hk'
          · exact hacc k hk'
          · subst hk'
            exact hfull
    · exact scanScopedChildren_keys tgt fs p sname rest _ _ h hacc

theorem scanStoreItems_keys (tgt : List String) (fs : DirTree) (p : List String)
    (f : DirForest) :
    ∀ (acc r : List (String × InstalledPackageRecord)),
      scanStoreItems tgt fs p f acc = .ok r →
      (∀ k ∈ dictKeys acc, k ∈ tgt) → ∀ k ∈ dictKeys r, k ∈ tgt := by
  cases f with
  | fnil =>
    intro acc r h hacc
    simp only [scanStoreItems] at h
    cases h
    exact hacc
  | fcons item rest =>
    intro acc r h hacc
    simp only [scanStoreItems] at h
    split at h
    · split at h
      · split at h
        · simp at h
        · next acc2 heq =>
          exact scanStoreItems_keys tgt fs p rest _ _ h
            (scanScopedChildren_keys tgt fs p _ _ _ _ heq hacc)
      · exact scanStoreItems_keys tgt fs p rest _ _ h hacc
    · split at h
      · next hname =>
        split at h
        · simp at h
        · split at h
          · simp at h
          · refine scanStoreItems_keys tgt fs p rest _ _ h ?_
            intro k hk
            rcases mem_dictKeys_dictSet acc _ k _ hk with hk' | hk'
            · exact hacc k hk'
            · subst hk'
              exact hname
      · exact scanStoreItems_keys tgt fs p rest _ _ h hacc

theorem scan_node_modules_keys (tgt : List String) (fs : DirTree) (p : List String)
    (r : List (String × InstalledPackageRecord))
    (h : scan_node_modules tgt fs p = .ok r) : ∀ k ∈ dictKeys r, k ∈ tgt := by
  simp only [scan_node_modules] at h
  split at h
  · cases h
    simp [dictKeys]
  · split at h
    · exact scanStoreItems_keys tgt fs p _ _ _ h (by simp [dictKeys])
    · cases h
      simp [dictKeys]

theorem addDepMatches_keys (tgt : List String) (data : JVal) (pathStr sec : String)
    (kvs : List (String × JVal)) :
    ∀ acc : List (String × DependencyReference),
      (∀ k ∈ dictKeys acc, k ∈ tgt) →
      ∀ k ∈ dictKeys (addDepMatches tgt data pathStr sec kvs acc), k ∈ tgt := by
  induction kvs with
  | nil =>
    intro acc hacc
    simpa only [addDepMatches] using hacc
  | cons kv rest ih =>
    obtain ⟨pkg, ver⟩ := kv
    intro acc hacc
    simp only [addDepMatches]
    split
    · next hpkg =>
      refine ih _ ?_
      intro k hk
      rcases mem_dictKeys_dictSet acc _ k _ hk with hk' | hk'
      · exact hacc k hk'
      · subst hk'
        exact hpkg
    · exact ih _ hacc

theorem scanDepSections_keys (tgt : List String) (data : JVal) (pathStr : String)
    (secs : List String) :
    ∀ (acc r : List (String × DependencyReference)),
      scanDepSections tgt data pathStr secs acc = .ok r →
      (∀ k ∈ dictKeys acc, k ∈ tgt) → ∀ k ∈ dictKeys r, k ∈ tgt := by
  induction secs with
  | nil =>
    intro acc r h hacc
    simp only [scanDepSections] at h
    cases h
    exact hacc
  | cons sec rest ih =>
    intro acc r h hacc
    simp only [scanDepSections] at h
    split at h
    · simp at h
    · exact ih _ _ h hacc
    · split at h
      · simp at h
      · exact ih _ _ h (addDepMatches_keys tgt data pathStr sec _ _ hacc)

theorem scan_package_json_keys (tgt : List String) (f : FileEntry) (pathStr : String)
    (r : List (String × DependencyReference))
    (h : scan_package_json tgt f pathStr = .ok r) : ∀ k ∈ dictKeys r, k ∈ tgt := by
  simp only [scan_package_json] at h
  split at h
  · split at h
    · cases h
      simp [dictKeys]
    · exact scanDepSections_keys tgt _ pathStr _ _ _ h (by simp [dictKeys])
  · cases h
    simp [dictKeys]

mutual
theorem walkTree_keys (tgt : List String) (fs : DirTree) (d : PTree) (st : ScanState)
    (hinst : ∀ k ∈ dictKeys st.installed_packages, k ∈ tgt)
    (hdeps : ∀ k ∈ dictKeys st.dependency_references, k ∈ tgt) :
    (∀ k ∈ dictKeys (walkTree tgt fs d st).installed_packages, k ∈ tgt) ∧
      ∀ k ∈ dictKeys (walkTree tgt fs d st).dependency_references, k ∈ tgt := by
  cases d with
  | mk p dname dreadable dfiles dsubs =>
    cases st with
    | mk sdirs plog inst deps ab =>
      simp only [walkTree]
      split
      · exact ⟨hinst, hdeps⟩
      split
      · exact ⟨hinst, hdeps⟩
      split
      · exact ⟨hinst, hdeps⟩
      split
      · exact walkTree_keys_forest tgt fs dsubs (.mk sdirs plog inst deps ab) hinst hdeps
      split
      · split
        · next found heq =>
          refine ⟨?_, hdeps⟩
          intro k hk
          rcases mem_dictKeys_dictUpdate inst found k hk with hk' | hk'
          · exact hinst k hk'
          · exact scan_node_modules_keys tgt fs p found heq k hk'
        · exact ⟨hinst, hdeps⟩
      · split
        · exact ⟨hinst, hdeps⟩
        · next found heq =>
          have hfound : ∀ k ∈ dictKeys found, k ∈ tgt := by
            split at heq
            · next f hf => exact scan_package_json_keys tgt f _ found heq
            · cases heq
              simp [dictKeys]
          have hdeps2 : ∀ k ∈ dictKeys (dictUpdate deps found), k ∈ tgt := by
            intro k hk
            rcases mem_dictKeys_dictUpdate deps found k hk with hk' | hk'
            · exact hdeps k hk'
            · exact hfound k hk'
          split
          · exact ⟨hinst, hdeps2⟩
          · exact walkTree_keys_forest tgt fs dsubs _ hinst hdeps2
theorem walkTree_keys_forest (tgt : List String) (fs : DirTree) (f : PForest) (st : ScanState)
    (hinst : ∀ k ∈ dictKeys st.installed_packages, k ∈ tgt)
    (hdeps : ∀ k ∈ dictKeys st.dependency_references, k ∈ tgt) :
    (∀ k ∈ dictKeys (walkForest tgt fs f st).installed_packages, k ∈ tgt) ∧
      ∀ k ∈ dictKeys (walkForest tgt fs f st).dependency_references, k ∈ tgt := by
  cases f with
  | fnil => exact ⟨hinst, hdeps⟩
  | fcons c rest =>
    have hc := walkTree_keys tgt fs c st hinst hdeps
    exact walkTree_keys_forest tgt fs rest (walkTree tgt fs c st) hc.1 hc.2
end

theorem worker_keys (tgt : List String) (fs : DirTree) (root : List String)
    (visited plog : List String) :
    (∀ k ∈ dictKeys (scan_directory_worker tgt fs root visited plog).installed_packages,
      k ∈ tgt) ∧
    ∀ k ∈ dictKeys (scan_directory_worker tgt fs root visited plog).dependency_references,
      k ∈ tgt := by
  unfold scan_directory_worker
  cases resolve fs root with
  | none => simp [dictKeys]
  | some d =>
    exact walkTree_keys tgt fs (annotateT root.dropLast d) ⟨visited, plog, [], [], false⟩
      (by simp [dictKeys]) (by simp [dictKeys])

theorem go_keys (tgt : List String) (fs : DirTree) (roots : List (List String)) :
    ∀ acc : ScanResults,
      (∀ k ∈ dictKeys acc.installed_packages, k ∈ tgt) →
      (∀ k ∈ dictKeys acc.dependency_references, k ∈ tgt) →
      (∀ k ∈ dictKeys (scan_computer_go tgt fs roots acc).installed_packages, k ∈ tgt) ∧
        ∀ k ∈ dictKeys (scan_computer_go tgt fs roots acc).dependency_references, k ∈ tgt := by
  induction roots with
  | nil => exact fun acc h1 h2 => ⟨h1, h2⟩
  | cons root rest ih =>
    intro acc h1 h2
    cases acc with
    | mk ai ad av ap =>
      have hw := worker_keys tgt fs root av ap
      simp only [scan_computer_go]
      cases hwe : scan_directory_worker tgt fs root av ap with
      | mk sd pl ip dr ab =>
        rw [hwe] at hw
        refine ih ⟨dictUpdate ai ip, dictUpdate ad dr, sd, pl⟩ ?_ ?_
        · intro k hk
          rcases mem_dictKeys_dictUpdate ai ip k hk with hk' | hk'
          · exact h1 k hk'
          · exact hw.1 k hk'
        · intro k hk
          rcases mem_dictKeys_dictUpdate ad dr k hk with hk' | hk'
          · exact h2 k hk'
          · exact hw.2 k hk'

/-- Claim C4: after any sequence of store scans, manifest scans and
result merges as orchestrated by `scan_computer` over any filesystem
and any list of root paths, every key of the installed-packages map and
every key of the dependency-references map is a member of the target
set. -/
theorem scan_results_keys_in_targets (tgt : List String) (fs : DirTree)
    (roots : List (List String)) :
    (∀ k ∈ dictKeys (scan_computer tgt fs roots).installed_packages, k ∈ tgt) ∧
      ∀ k ∈ dictKeys (scan_computer tgt fs roots).dependency_references, k ∈ tgt :=
  go_keys tgt fs roots ⟨[], [], [], []⟩ (by simp [dictKeys]) (by simp [dictKeys])

/-- Witness for claim C4: in the overlapping-roots scan both result
maps hold the key `left-pad`, and the theorem places it in the target
set. -/
theorem scan_results_keys_in_targets_witness :
    "left-pad" ∈ tgtEx ∧ "left-pad" ∈ tgtEx :=
  ⟨(scan_results_keys_in_targets tgtEx fsOverlap [["/", "a", "b"], ["/", "a"]]).1
      "left-pad" (by decide),
   (scan_results_keys_in_targets tgtEx fsOverlap [["/", "a", "b"], ["/", "a"]]).2
      "left-pad" (by decide)⟩

theorem jlookup_eq_none_of_not_mem (kvs : List (String × JVal)) (k : String)
    (h : k ∉ kvs.map Prod.fst) : jlookup kvs k = none := by
  induction kvs with
  | nil => simp [jlookup]
  | cons kv rest ih =>
    obtain ⟨k0, v0⟩ := kv
    simp only [List.map_cons, List.mem_cons, not_or] at h
    simp [jlookup, Ne.symm h.1, ih h.2]

theorem pyContains_false_sectionItems (data : JVal) (sec : String)
    (h : pyContains data sec = .ok false) : sectionItems data sec = none := by
  cases data with
  | jstr s => rfl
  | jnum n => simp [pyContains] at h
  | jnull => simp [pyContains] at h
  | jobj fields =>
    simp [pyContains] at h
    simp [sectionItems, h]

theorem pyItems_ok_sectionItems (data : JVal) (sec : String) (kvs : List (String × JVal))
    (h : pyItems data sec = .ok kvs) : sectionItems data sec = some kvs := by
  cases data with
  | jstr s => simp [pyItems] at h
  | jnum n => simp [pyItems] at h
  | jnull => simp [pyItems] at h
  | jobj fields =>
    simp only [pyItems] at h
    split at h
    · next kvs0 heq =>
      cases h
      simp [sectionItems, heq]
    · simp at h

theorem addDepMatches_nodup (tgt : List String) (data : JVal) (pathStr sec : String)
    (kvs : List (String × JVal)) :
    ∀ acc : List (String × DependencyReference), (dictKeys acc).Nodup →
      (dictKeys (addDepMatches tgt data pathStr sec kvs acc)).Nodup := by
  induction kvs with
  | nil => exact fun acc h => by simpa [addDepMatches] using h
  | cons kv rest ih =>
    obtain ⟨pkg, ver⟩ := kv
    intro acc hacc
    simp only [addDepMatches]
    split
    · exact ih _ (nodup_dictKeys_dictSet acc _ _ hacc)
    · exact ih _ hacc

theorem scanDepSections_nodup (tgt : List String) (data : JVal) (pathStr : String)
    (secs : List String) :
    ∀ (acc r : List (String × DependencyReference)),
      scanDepSections tgt data pathStr secs acc = .ok r →
      (dictKeys acc).Nodup → (dictKeys r).Nodup := by
  induction secs with
  | nil =>
    intro acc r h hacc
    simp only [scanDepSections] at h
    cases h
    exact hacc
  | cons sec rest ih =>
    intro acc r h hacc
    simp only [scanDepSections] at h
    split at h
    · simp at h
    · exact ih _ _ h hacc
    · split at h
      · simp at h
      · exact ih _ _ h (addDepMatches_nodup tgt data pathStr sec _ _ hacc)

theorem addDepMatches_get (tgt : List String) (data : JVal) (pathStr sec : String)
    (kvs : List (String × JVal)) :
    ∀ (acc : List (String × DependencyReference)) (k : String),
      (kvs.map Prod.fst).Nodup →
      dictGet (addDepMatches tgt data pathStr sec kvs acc) k =
        Option.elim (if k ∈ tgt then jlookup kvs k else none)
          (dictGet acc k)
          (fun v => some ⟨v, sec, jGetD data "name" (.jstr "unknown"), pathStr⟩) := by
  induction kvs with
  | nil =>
    intro acc k _
    simp only [addDepMatches, jlookup]
    split <;> simp
  | cons kv rest ih =>
    obtain ⟨pkg, ver⟩ := kv
    intro acc k hnod
    simp only [List.map_cons, List.nodup_cons] at hnod
    simp only [addDepMatches]
    by_cases hk : k = pkg
    · subst hk
      split
      · next hpkg =>
        rw [ih _ k hnod.2]
        rw [jlookup_eq_none_of_not_mem rest k hnod.1]
        simp [jlookup, hpkg, dictGet_dictSet_self]
      · next hpkg =>
        rw [ih _ k hnod.2]
        rw [jlookup_eq_none_of_not_mem rest k hnod.1]
        simp [jlookup, hpkg]
    · split
      · next hpkg =>
        rw [ih _ k hnod.2]
        rw [dictGet_dictSet_ne acc pkg k _ hk]
        simp [jlookup, Ne.symm hk]
      · next hpkg =>
        rw [ih _ k hnod.2]
        simp [jlookup, Ne.symm hk]

theorem scanDepSections_get (tgt : List String) (data : JVal) (pathStr : String)
    (secs : List String) :
    ∀ (acc r : List (String × DependencyReference)) (k : String),
      scanDepSections tgt data pathStr secs acc = .ok r →
      (∀ sec ∈ secs, ∀ kvs, sectionItems data sec = some kvs → (kvs.map Prod.fst).Nodup) →
      dictGet r k =
        Option.elim (lastRefIn tgt data pathStr secs k) (dictGet acc k) some := by
  induction secs with
  | nil =>
    intro acc r k h _
    simp only [scanDepSections] at h
    cases h
    simp [lastRefIn]
  | cons sec rest ih =>
    intro acc r k h hwf
    simp only [scanDepSections] at h
    split at h
    · simp at h
    · next heqc =>
      have hsec : sectionItems data sec = none := pyContains_false_sectionItems data sec heqc
      rw [ih acc r k h (fun s hs => hwf s (List.mem_cons_of_mem sec hs))]
      simp only [lastRefIn]
      cases lastRefIn tgt data pathStr rest k with
      | some x => rfl
      | none => simp [secRef, hsec]
    · split at h
      · simp at h
      · next kvs heqi =>
        have hsec : sectionItems data sec = some kvs := pyItems_ok_sectionItems data sec kvs heqi
        have hnod : (kvs.map Prod.fst).Nodup :=
          hwf sec (List.mem_cons_self sec rest) kvs hsec
        rw [ih _ r k h (fun s hs => hwf s (List.mem_cons_of_mem sec hs))]
        rw [addDepMatches_get tgt data pathStr sec kvs acc k hnod]
        simp only [lastRefIn]
        cases lastRefIn tgt data pathStr rest k with
        | some x => rfl
        | none =>
          simp only [Option.elim, secRef, hsec]
          by_cases hktgt : k ∈ tgt
          · simp only [if_pos hktgt]
            cases jlookup kvs k with
            | some v => rfl
            | none => rfl
          · simp [hktgt]

/-- Claim C10: for every readable, parsable project manifest whose
dependency sections are well-formed objects (the shape `json.load`
yields for an on-disk manifest), the dependency scan returns a dict
with pairwise-distinct keys — at most one DependencyReference per
identifier — and the reference stored for any identifier is the one of
the LAST section, in the fixed order dependencies, devDependencies,
peerDependencies, optionalDependencies, that lists it (with that
section's version and class). -/
theorem scan_package_json_last_class_wins (tgt : List String) (f : FileEntry)
    (pathStr : String) (data : JVal) (r : List (String × DependencyReference))
    (hread : f.readable = true) (hdata : f.data = some data)
    (hwf : ∀ sec ∈ dep_sections, ∀ kvs, sectionItems data sec = some kvs →
      (kvs.map Prod.fst).Nodup)
    (h : scan_package_json tgt f pathStr = .ok r) :
    (dictKeys r).Nodup ∧
      ∀ k, dictGet r k = lastRefIn tgt data pathStr dep_sections k := by
  simp only [scan_package_json, hread, hdata, if_true] at h
  refine ⟨scanDepSections_nodup tgt data pathStr dep_sections [] r h (by simp [dictKeys]), ?_⟩
  intro k
  rw [scanDepSections_get tgt data pathStr dep_sections [] r k h hwf]
  cases lastRefIn tgt data pathStr dep_sections k with
  | some x => rfl
  | none => simp [dictGet]

/-- Witness for claim C10 on the four-class manifest: the result is the
single optionalDependencies entry and agrees with `lastRefIn`. -/
theorem scan_package_json_last_class_wins_witness :
    (dictKeys [("left-pad",
      (⟨.jstr "^4", "optionalDependencies", .jstr "proj",
        "/proj/package.json"⟩ : DependencyReference))]).Nodup ∧
    dictGet [("left-pad",
      (⟨.jstr "^4", "optionalDependencies", .jstr "proj",
        "/proj/package.json"⟩ : DependencyReference))] "left-pad" =
      lastRefIn tgtEx fourClassManifest "/proj/package.json" dep_sections "left-pad" :=
  ⟨(scan_package_json_last_class_wins tgtEx fourClassFile "/proj/package.json"
      fourClassManifest _ rfl rfl
      (by
        intro sec hsec kvs hkvs
        fin_cases hsec <;>
          (injection hkvs with hh; subst hh; decide)) rfl).1,
   (scan_package_json_last_class_wins tgtEx fourClassFile "/proj/package.json"
      fourClassManifest _ rfl rfl
      (by
        intro sec hsec kvs hkvs
        fin_cases hsec <;>
          (injection hkvs with hh; subst hh; decide)) rfl).2 "left-pad"⟩

/-- Claim C2 (counterexample): the four-class manifest for the target
`left-pad` does NOT yield four DependencyReference entries — the scan
returns a dict keyed by identifier, so the four classes collapse into
one entry. -/
theorem four_class_counterexample :
    ¬ ((scan_package_json tgtEx fourClassFile "/proj/package.json").toOption.map
        List.length = some 4) := by decide

/-- Claim C2 (amended): a readable, parsable, well-formed manifest that
declares a target identifier in each of the four dependency classes
yields exactly ONE DependencyReference entry for that identifier (its
key occurs exactly once in the result dict), tagged with the last
listing class in the fixed order — optionalDependencies — and that
section's version. -/
theorem four_class_single_reference (tgt : List String) (f : FileEntry) (pathStr : String)
    (data : JVal) (r : List (String × DependencyReference)) (k : String)
    (v1 v2 v3 v4 : JVal) (kv1 kv2 kv3 kv4 : List (String × JVal))
    (hread : f.readable = true) (hdata : f.data = some data)
    (hwf : ∀ sec ∈ dep_sections, ∀ kvs, sectionItems data sec = some kvs →
      (kvs.map Prod.fst).Nodup)
    (h : scan_package_json tgt f pathStr = .ok r)
    (hk : k ∈ tgt)
    (h1 : sectionItems data "dependencies" = some kv1) (hl1 : jlookup kv1 k = some v1)
    (h2 : sectionItems data "devDependencies" = some kv2) (hl2 : jlookup kv2 k = some v2)
    (h3 : sectionItems data "peerDependencies" = some kv3) (hl3 : jlookup kv3 k = some v3)
    (h4 : sectionItems data "optionalDependencies" = some kv4)
    (hl4 : jlookup kv4 k = some v4) :
    (dictKeys r).count k = 1 ∧
      dictGet r k = some ⟨v4, "optionalDependencies",
        jGetD data "name" (.jstr "unknown"), pathStr⟩ := by
  simp only [scan_package_json, hread, hdata, if_true] at h
  have hnodup := scanDepSections_nodup tgt data pathStr dep_sections [] r h (by simp [dictKeys])
  have hget := scanDepSections_get tgt data pathStr dep_sections [] r k h hwf
  have hlast : lastRefIn tgt data pathStr dep_sections k =
      some ⟨v4, "optionalDependencies", jGetD data "name" (.jstr "unknown"), pathStr⟩ := by
    simp [dep_sections, lastRefIn, secRef, h4, hl4, hk]
  rw [hlast] at hget
  simp only [Option.elim] at hget
  exact ⟨List.count_eq_one_of_mem hnodup (mem_dictKeys_of_dictGet_some r k _ hget), hget⟩

/-- Witness for claim C2 (amended) on the four-class manifest. -/
theorem four_class_single_reference_witness :
    (dictKeys [("left-pad",
      (⟨.jstr "^4", "optionalDependencies", .jstr "proj",
        "/proj/package.json"⟩ : DependencyReference))]).count "left-pad" = 1 ∧
    dictGet [("left-pad",
      (⟨.jstr "^4", "optionalDependencies", .jstr "proj",
        "/proj/package.json"⟩ : DependencyReference))] "left-pad" =
      some ⟨.jstr "^4", "optionalDependencies",
        jGetD fourClassManifest "name" (.jstr "unknown"), "/proj/package.json"⟩ :=
  four_class_single_reference tgtEx fourClassFile "/proj/package.json" fourClassManifest
    _ "left-pad" (.jstr "^1") (.jstr "^2") (.jstr "^3") (.jstr "^4")
    [("left-pad", .jstr "^1")] [("left-pad", .jstr "^2")]
    [("left-pad", .jstr "^3")] [("left-pad", .jstr "^4")]
    rfl rfl
    (by
      intro sec hsec kvs hkvs
      fin_cases hsec <;>
        (injection hkvs with hh; subst hh; decide)) rfl
    (by decide) rfl rfl rfl rfl rfl rfl rfl rfl

/-- Claim C3: in a store holding one scoped entry (a directory `sname`
beginning with `@` with one child directory `cname`), the store scan
records a match only under the combined identifier `sname/cname`
(built as `f"{item.name}/{scoped_package.name}"`), and records it
exactly when that combined identifier is in the target set — never
under the scope name alone and never under the child name alone, as
the computed result dict shows. -/
theorem scoped_match_only_combined (tgt : List String) (fs : DirTree) (p : List String)
    (nmfiles : List FileEntry) (sname : String) (sfiles : List FileEntry)
    (cname : String) (cread : Bool) (cfiles : List FileEntry) (csub : DirForest)
    (ver proj : JVal)
    (hs : pyStartsWith sname "@" = true)
    (hres : resolve fs p = some (.mk "node_modules" true nmfiles
      (.fcons (.mk sname true sfiles (.fcons (.mk cname cread cfiles csub) .fnil)) .fnil)))
    (hv : get_package_version (.mk cname cread cfiles csub) = .ok ver)
    (hp : find_parent_project fs p = .ok proj) :
    scan_node_modules tgt fs p =
      .ok (if (sname ++ "/" ++ cname) ∈ tgt
           then [(sname ++ "/" ++ cname,
                  ⟨ver, renderPath (p ++ [sname, cname]), proj⟩)]
           else []) := by
  by_cases hmem : (sname ++ "/" ++ cname) ∈ tgt
  · simp [scan_node_modules, hres, DirTree.readable, scanStoreItems, DirTree.name,
      DirTree.subdirs, hs, scanScopedChildren, hmem, hv, hp, dictSet]
  · simp [scan_node_modules, hres, DirTree.readable, scanStoreItems, DirTree.name,
      DirTree.subdirs, hs, scanScopedChildren, hmem]

/-- Witness for claim C3: the store `/node_modules` holding
`@scope/pkg` records exactly the combined identifier. -/
theorem scoped_match_only_combined_witness :
    scan_node_modules ["@scope/pkg"] fsScoped ["/", "node_modules"] =
      .ok (if ("@scope" ++ "/" ++ "pkg") ∈ ["@scope/pkg"]
           then [("@scope" ++ "/" ++ "pkg",
                  ⟨.jstr "unknown", renderPath (["/", "node_modules"] ++ ["@scope", "pkg"]),
                   .jstr ""⟩)]
           else []) :=
  scoped_match_only_combined ["@scope/pkg"] fsScoped ["/", "node_modules"]
    [] "@scope" [] "pkg" true [] .fnil (.jstr "unknown") (.jstr "")
    (by decide) rfl rfl rfl
